import Mathlib

/-!
# Verification of the trade/market stream-join pipeline

Shallow embedding of the TypeScript sources of the
`t1-coding-challenge-systems-engineers` repository:

* `calculation-service/src/pnl-calculation.ts` (`calculatePnL`),
* `calculation-service/src/index.ts` (per-partition offset tracking,
  `commitOffsetsInOrder`, the `eachMessage` handler),
* `calculation-service/src/market-buffer.ts` and
  `market-pnl-transaction.ts` (`processMarketMessage`, `writeMarketAndPnL`),
* the frontend PnL aggregation (`getPnls`, `calculateInterval`),
* `trade-persistence-service/src/batch-writer.ts` (`flushBatchToDB`),
* `trade-memory-service/src/memory-buffer.ts` and `range-query.ts`
  (buffer operations, retention sweeps, the bounded wait, routing).

Conventions: instants (JS `Date`) are modelled as integers (milliseconds
since epoch, compared exactly as `getTime()` does); decimal values
(`decimal.js` `Decimal` and decimal strings) as rationals `ℚ`, which is
exact for the arbitrary-precision decimal arithmetic the code uses;
Kafka offsets (decimal `BigInt` strings in the code) as naturals `ℕ`.
JS `Set`s are modelled as insertion-ordered duplicate-free lists,
`Map`s as association lists.
-/

namespace T1

/-- Trade side, `BUY | SELL` in `types.ts`. -/
inductive TradeType where
  | BUY
  | SELL
deriving DecidableEq, Repr

/-- The `Trade` interface of `calculation-service/src/types.ts`:
`{tradeType, volume, time}` with volume a decimal string and time an ISO
string; volume is modelled as `ℚ`, time as milliseconds. -/
structure Trade where
  tradeType : TradeType
  volume : ℚ
  time : ℤ
deriving DecidableEq, Repr

/-- `TRADING_FEE_PER_MWH` from `pnl-calculation.ts`: the default
configured constant `0.13` €/MWh. -/
def TRADING_FEE_PER_MWH : ℚ := 13 / 100

/-- Result record of `calculatePnL`. -/
structure PnLResult where
  totalBuyVolume : ℚ
  totalSellVolume : ℚ
  totalBuyCost : ℚ
  totalSellRevenue : ℚ
  totalFees : ℚ
  pnl : ℚ
deriving DecidableEq, Repr

/-- Accumulator of the `for (const trade of trades)` loop in
`calculatePnL`. -/
structure PnLAcc where
  buyVol : ℚ
  sellVol : ℚ
  buyFees : ℚ
  sellFees : ℚ
deriving DecidableEq, Repr

/-- One iteration of the trade loop of `calculatePnL`
(`pnl-calculation.ts` lines 25-36). -/
def pnlStep (acc : PnLAcc) (t : Trade) : PnLAcc :=
  let fee := t.volume * TRADING_FEE_PER_MWH
  match t.tradeType with
  | .BUY => { acc with buyVol := acc.buyVol + t.volume, buyFees := acc.buyFees + fee }
  | .SELL => { acc with sellVol := acc.sellVol + t.volume, sellFees := acc.sellFees + fee }

/-- `calculatePnL` from `calculation-service/src/pnl-calculation.ts`:
accumulates buy/sell volumes and per-trade fees, then
`totalBuyCost = totalBuyVolume·buyPrice + totalBuyFees`,
`totalSellRevenue = totalSellVolume·sellPrice − totalSellFees`,
`totalFees = totalBuyFees + totalSellFees`,
`pnl = totalSellRevenue − totalBuyCost`. -/
def calculatePnL (buyPrice sellPrice : ℚ) (trades : List Trade) : PnLResult :=
  let acc := trades.foldl pnlStep ⟨0, 0, 0, 0⟩
  let totalBuyCost := acc.buyVol * buyPrice + acc.buyFees
  let totalSellRevenue := acc.sellVol * sellPrice - acc.sellFees
  { totalBuyVolume := acc.buyVol
    totalSellVolume := acc.sellVol
    totalBuyCost := totalBuyCost
    totalSellRevenue := totalSellRevenue
    totalFees := acc.buyFees + acc.sellFees
    pnl := totalSellRevenue - totalBuyCost }

/-- Spec-side definition (for comparison with the code): the sum of the
volumes of the BUY trades of the input list. -/
def specBuyVolume (trades : List Trade) : ℚ :=
  ((trades.filter (fun t => t.tradeType = .BUY)).map Trade.volume).sum

/-- Spec-side definition (for comparison with the code): the sum of the
volumes of the SELL trades of the input list. -/
def specSellVolume (trades : List Trade) : ℚ :=
  ((trades.filter (fun t => t.tradeType = .SELL)).map Trade.volume).sum

/-! ## Per-partition offset tracking of the calculation service

`calculation-service/src/index.ts` keeps, per partition, the JS sets
`inFlightOffsets` and `completedOffsets` and the map entry
`lastCommittedOffset`. A JS `Set` is modelled as an insertion-ordered
duplicate-free list; all three structures for one partition are bundled
in `PartState` (the maps in the source are keyed by partition and the
code only ever touches the entries of one partition at a time). -/

/-- `Set.add`: append if absent (JS sets keep insertion order and ignore
re-insertion). -/
def setAdd (l : List ℕ) (x : ℕ) : List ℕ :=
  if x ∈ l then l else l ++ [x]

/-- Minimum of a list, the `Array.from(completed).sort(...)[0]` of
`commitOffsetsInOrder` (the sort compares the offsets as `BigInt`s,
i.e. numerically). -/
def listMin : List ℕ → Option ℕ
  | [] => none
  | x :: xs => some (xs.foldl Nat.min x)

/-- The tracking state of one partition of the `market` topic:
`inFlightOffsets.get(p)`, `completedOffsets.get(p)`,
`lastCommittedOffset.get(p)`. -/
structure PartState where
  inFlight : List ℕ
  completed : List ℕ
  lastCommitted : Option ℕ
deriving DecidableEq, Repr

/-- The `while (nextToCommit)` loop of `commitOffsetsInOrder`
(`index.ts` lines 105-133). `busOk k` is the outcome of
`consumer.commitOffsets` for offset `k` (the bus receives `k + 1`, the
next offset to read). On success the offset is removed from `completed`
and `lastCommitted` is updated; on failure the loop breaks. Returns the
updated `(completed, lastCommitted)` and the list of offsets committed,
in commit order. The fuel is structural; `commitOffsetsInOrder` passes
`completed.length`, which suffices because every recursive call erases
one element of `completed`. -/
def commitLoop (busOk : ℕ → Bool) :
    ℕ → List ℕ → Option ℕ → ℕ → List ℕ × Option ℕ × List ℕ
  | _, completed, last, 0 => (completed, last, [])
  | next, completed, last, fuel + 1 =>
    if busOk next then
      let completed' := completed.erase next
      if (next + 1) ∈ completed' then
        let r := commitLoop busOk (next + 1) completed' (some next) fuel
        (r.1, r.2.1, next :: r.2.2)
      else
        (completed', some next, [next])
    else
      (completed, last, [])

/-- `commitOffsetsInOrder` from `calculation-service/src/index.ts`
(lines 80-134): if `completed` is empty, return; pick `nextToCommit` as
the minimum of `completed` when nothing was committed yet, else
`lastCommitted + 1` provided it is in `completed`; then run the commit
loop. Returns the new state and the offsets committed to the bus. -/
def commitOffsetsInOrder (busOk : ℕ → Bool) (st : PartState) :
    PartState × List ℕ :=
  if st.completed = [] then (st, [])
  else
    let nextToCommit : Option ℕ :=
      match st.lastCommitted with
      | none => listMin st.completed
      | some l => if (l + 1) ∈ st.completed then some (l + 1) else none
    match nextToCommit with
    | none => (st, [])
    | some next =>
      let r := commitLoop busOk next st.completed st.lastCommitted st.completed.length
      ({ st with completed := r.1, lastCommitted := r.2.1 }, r.2.2)

/-- The duplicate check and in-flight insertion of the `eachMessage`
handler (`index.ts` lines 155-168), for a parsed, valid market message:
if the offset is already in `inFlight` the delivery is skipped
(returns `false` = no processing task started); otherwise the offset is
added to `inFlight` and a processing task is launched (`true`). -/
def handleDeliver (st : PartState) (off : ℕ) : PartState × Bool :=
  if off ∈ st.inFlight then (st, false)
  else ({ st with inFlight := setAdd st.inFlight off }, true)

/-- The `.then` epilogue of a processing task (`index.ts` lines
174-188): remove the offset from `inFlight`, add it to `completed`, and
attempt `commitOffsetsInOrder`. Returns the new state and the offsets
committed. -/
def handleComplete (busOk : ℕ → Bool) (st : PartState) (off : ℕ) :
    PartState × List ℕ :=
  commitOffsetsInOrder busOk
    { st with inFlight := st.inFlight.erase off,
              completed := setAdd st.completed off }

/-- The `.catch` epilogue of a processing task (`index.ts` lines
189-195): the offset leaves `inFlight` and is not completed. -/
def handleFail (st : PartState) (off : ℕ) : PartState :=
  { st with inFlight := st.inFlight.erase off }

/-- Events of one partition of the calculation pipeline: delivery of a
valid market message, completion of its processing task (with the bus
commit outcomes in effect at that moment), or a processing failure. -/
inductive Ev where
  | deliver (off : ℕ)
  | complete (off : ℕ) (busOk : ℕ → Bool)
  | fail (off : ℕ)

/-- Run a sequence of events from a state, accumulating the log of
offsets committed to the bus, in order. -/
def runEvents (st : PartState) : List Ev → PartState × List ℕ
  | [] => (st, [])
  | Ev.deliver off :: evs => runEvents (handleDeliver st off).1 evs
  | Ev.complete off busOk :: evs =>
    let r := handleComplete busOk st off
    let rest := runEvents r.1 evs
    (rest.1, r.2 ++ rest.2)
  | Ev.fail off :: evs => runEvents (handleFail st off) evs

/-- The initial tracking state of a partition
(`initPartitionTracking`). -/
def initialPartState : PartState := ⟨[], [], none⟩

/-! ## Trade memory service

`trade-memory-service/src/memory-buffer.ts` and `range-query.ts`. -/

/-- The `TradeDocument` interface of the trade services:
`{tradeType, volume, time, partition, offset, createdAt}`. -/
structure TradeDoc where
  tradeType : TradeType
  volume : ℚ
  time : ℤ
  partition : ℕ
  offset : ℕ
  createdAt : ℤ
deriving DecidableEq, Repr

/-- `getTradesFromBuffer` (`memory-buffer.ts` lines 17-21): all buffered
trades with `startTime ≤ time ≤ endTime`, inclusive on both ends. -/
def getTradesFromBuffer (startTime endTime : ℤ) (buf : List TradeDoc) :
    List TradeDoc :=
  buf.filter (fun t => startTime ≤ t.time ∧ t.time ≤ endTime)

/-- `hasTradesInRange` (`memory-buffer.ts` lines 63-67). -/
def hasTradesInRange (startTime endTime : ℤ) (buf : List TradeDoc) : Bool :=
  buf.any (fun t => startTime ≤ t.time ∧ t.time ≤ endTime)

/-- `removeOldTrades` of `trade-memory-service/src/memory-buffer.ts`
(lines 38-55): the backwards `for` loop splices out EVERY trade with
`time < cutoffTime`, wherever it sits in the array, so the result is
the sublist of trades with `cutoffTime ≤ time`. `cutoff` stands for
`now − MEMORY_RETENTION_MS`. -/
def removeOldTrades (cutoff : ℤ) (buf : List TradeDoc) : List TradeDoc :=
  buf.filter (fun t => !decide (t.time < cutoff))

/-- The deque variant of `removeOldTrades` kept in
`trade-memory-service/src/range-query.ts` (lines 201-225): pop from the
front while the head trade has `time < cutoffTime`, and stop at the
first trade that is not old (relying on the buffer being roughly
chronological). -/
def removeOldTradesFrontTrim (cutoff : ℤ) (buf : List TradeDoc) :
    List TradeDoc :=
  buf.dropWhile (fun t => decide (t.time < cutoff))

/-- `isPossibleOutOfOrderTrade` (`memory-buffer.ts` lines 97-110), as a
function of the mutable range variables `queriedRangeStart` /
`queriedRangeEnd` (both `null` before any query, both set after): no
range → `false`; inside the range → `true`; otherwise `true` exactly
when the trade is older than the range start. -/
def isPossibleOutOfOrderTrade (qStart qEnd : Option ℤ) (tradeTime : ℤ) :
    Bool :=
  match qStart, qEnd with
  | some a, some b =>
    if a ≤ tradeTime ∧ tradeTime ≤ b then true
    else decide (tradeTime < a)
  | _, _ => false

/-- `WAIT_TIMEOUT_MS / intervalMs = 3000 / 100`: the number of poll
iterations of the bounded wait before the `while (Date.now() - start <
timeoutMs)` guard fails. -/
def WAIT_MAX_POLLS : ℕ := 30

/-- The polling loop of `waitForTradeAfterEndTimeOrTimeout`
(`range-query.ts` lines 61-92). `obs i` is `getLastTradeTime()` as seen
at poll iteration `i` (the buffer may gain trades between polls);
`initial` is the `initialLastTradeTimeValue` captured by the caller.
The loop exits early at iteration `i` (result `some i`) exactly when
the observed value is non-null, counts as a new trade
(`initial === null || current !== initial`), and is strictly after
`end`; otherwise it sleeps and polls again until the fuel (the time
budget) runs out (result `none`, the full-timeout exit). -/
def waitPolls (endTime : ℤ) (initial : Option ℤ) (obs : ℕ → Option ℤ) :
    ℕ → ℕ → Option ℕ
  | _, 0 => none
  | i, fuel + 1 =>
    match obs i with
    | some cur =>
      if (initial = none ∨ ¬ initial = some cur) ∧ endTime < cur then some i
      else waitPolls endTime initial obs (i + 1) fuel
    | none => waitPolls endTime initial obs (i + 1) fuel

/-- `waitForTradeAfterEndTimeOrTimeout` with the default timeout:
polls from iteration 0 with `WAIT_MAX_POLLS` iterations of budget. -/
def waitForTradeAfterEndTimeOrTimeout (endTime : ℤ) (initial : Option ℤ)
    (obs : ℕ → Option ℤ) : Option ℕ :=
  waitPolls endTime initial obs 0 WAIT_MAX_POLLS

/-- Response of the memory service function `getTradesForPeriod`:
the trades returned, whether the persistence service was consulted,
and the outcome of the bounded wait (`none` when no wait ran;
`some none` when the wait ran to the full timeout; `some (some i)` when
it returned early at poll `i`). -/
structure RouteResult where
  trades : List TradeDoc
  usedPersistence : Bool
  waitOutcome : Option (Option ℕ)
deriving Repr

/-- `getTradesForPeriod` of `trade-memory-service/src/range-query.ts`
(lines 95-161), with its two suspension points made explicit:
`entryBuf` is the trade buffer at entry (used by `hasTradesInRange` and
for the captured `initialLastTradeTime`, passed as `initial`), and
`afterWaitBuf` is the buffer when `getTradesFromBuffer` runs after the
bounded wait (the retention sweep and new deliveries may have changed
it in between). `persist` is the persistence-service RPC result
(`none` = the RPC failed, which falls back to an empty list). The
routing decision — memory vs persistence — is taken on `entryBuf`,
before the wait. `updateQueriedRange` only mutates the queried-range
variables and does not affect the response. -/
def getTradesForPeriodMem (entryBuf afterWaitBuf : List TradeDoc)
    (initial : Option ℤ) (obs : ℕ → Option ℤ)
    (persist : Option (List TradeDoc)) (startTime endTime : ℤ) :
    RouteResult :=
  if hasTradesInRange startTime endTime entryBuf then
    let w := waitForTradeAfterEndTimeOrTimeout endTime initial obs
    { trades := getTradesFromBuffer startTime endTime afterWaitBuf
      usedPersistence := false
      waitOutcome := some w }
  else
    match persist with
    | some ts => { trades := ts, usedPersistence := true, waitOutcome := none }
    | none => { trades := [], usedPersistence := true, waitOutcome := none }

/-! ## Calculation service: market buffer and atomic market+PnL write

`calculation-service/src/market-buffer.ts`, `market-pnl-transaction.ts`
and the unique indexes created in `db.ts` (`markets` unique on
`(partition, offset)`, `pnls` unique on
`(marketStartTime, marketEndTime)`; the `markets` index on
`(startTime, endTime)` is not unique). -/

/-- The `MarketDocument` of `calculation-service/src/types.ts`. -/
structure MarketDocument where
  buyPrice : ℚ
  sellPrice : ℚ
  startTime : ℤ
  endTime : ℤ
  partition : ℕ
  offset : ℕ
  createdAt : ℤ
deriving DecidableEq, Repr

/-- The `PnLDocument` of `calculation-service/src/types.ts` (the
decimal-string fields as rationals). -/
structure PnLDocument where
  marketStartTime : ℤ
  marketEndTime : ℤ
  buyPrice : ℚ
  sellPrice : ℚ
  totalBuyVolume : ℚ
  totalSellVolume : ℚ
  totalBuyCost : ℚ
  totalSellRevenue : ℚ
  totalFees : ℚ
  pnl : ℚ
  createdAt : ℤ
deriving DecidableEq, Repr

/-- The document store: the `markets` and `pnls` collections, as lists
in insertion order. -/
structure Store where
  markets : List MarketDocument
  pnls : List PnLDocument
deriving DecidableEq, Repr

/-- The state the processing task of the calculation pipeline reads and
writes: the in-memory market LRU (`marketBuffer`, oldest first) and the
store. -/
structure CalcState where
  marketBuffer : List MarketDocument
  store : Store
deriving DecidableEq, Repr

/-- `MARKET_BUFFER_SIZE`, default 100. -/
def MARKET_BUFFER_SIZE : ℕ := 100

/-- A parsed, validated market message (`RawMarketMessage`), with the
decimal-string prices as rationals and the ISO instants as
milliseconds. -/
structure RawMarketMessage where
  buyPrice : ℚ
  sellPrice : ℚ
  startTime : ℤ
  endTime : ℤ
deriving DecidableEq, Repr

/-- `isMarketProcessed` (`market-buffer.ts` lines 15-34): search the
in-memory buffer for a market with the same `(startTime, endTime)` (the
code scans from the end, which returns the same Boolean), and on a miss
consult the `markets` collection by `(startTime, endTime)`. -/
def isMarketProcessed (st : CalcState) (startTime endTime : ℤ) : Bool :=
  st.marketBuffer.any (fun m => m.startTime = startTime ∧ m.endTime = endTime)
    || st.store.markets.any
        (fun m => m.startTime = startTime ∧ m.endTime = endTime)

/-- `addMarketToBuffer` (`market-buffer.ts` lines 37-44): push at the
back; if the size exceeds `MARKET_BUFFER_SIZE`, pop the front. -/
def addMarketToBuffer (buf : List MarketDocument) (m : MarketDocument) :
    List MarketDocument :=
  let buf' := buf ++ [m]
  if MARKET_BUFFER_SIZE < buf'.length then buf'.tail else buf'

/-- `writeMarketAndPnL` (`market-pnl-transaction.ts` lines 9-41): insert
the market and the PnL documents in one transaction. A duplicate-key
abort (Mongo code 11000, raised when the market violates the unique
`(partition, offset)` index or the PnL violates the unique
`(marketStartTime, marketEndTime)` index) rolls the transaction back
and is treated as already-processed (`true`); otherwise both documents
are inserted and the result is `false`. Infrastructure failures, which
the code re-raises, are outside this model. -/
def writeMarketAndPnL (store : Store) (m : MarketDocument)
    (p : PnLDocument) : Bool × Store :=
  if store.markets.any
        (fun x => x.partition = m.partition ∧ x.offset = m.offset)
      || store.pnls.any
          (fun x => x.marketStartTime = p.marketStartTime ∧
            x.marketEndTime = p.marketEndTime) then
    (true, store)
  else
    (false, { markets := store.markets ++ [m], pnls := store.pnls ++ [p] })

/-- `processMarketMessage` (`market-buffer.ts` lines 48-123):
idempotency check via `isMarketProcessed`; on a miss, fetch the trades
of the interval (the gRPC result is the parameter `tradesForPeriod`),
compute the PnL, build the documents (`now` is the wall clock used for
`createdAt`), write them atomically, and on a fresh write add the
market to the buffer. Returns `true` when processing was skipped
(idempotency), `false` when the interval was processed. -/
def processMarketMessage (msg : RawMarketMessage) (partition offset : ℕ)
    (tradesForPeriod : List Trade) (now : ℤ) (st : CalcState) :
    Bool × CalcState :=
  if isMarketProcessed st msg.startTime msg.endTime then (true, st)
  else
    let marketDoc : MarketDocument :=
      ⟨msg.buyPrice, msg.sellPrice, msg.startTime, msg.endTime,
        partition, offset, now⟩
    let r := calculatePnL msg.buyPrice msg.sellPrice tradesForPeriod
    let pnlDoc : PnLDocument :=
      ⟨msg.startTime, msg.endTime, msg.buyPrice, msg.sellPrice,
        r.totalBuyVolume, r.totalSellVolume, r.totalBuyCost,
        r.totalSellRevenue, r.totalFees, r.pnl, now⟩
    let w := writeMarketAndPnL st.store marketDoc pnlDoc
    if w.1 then (true, { st with store := w.2 })
    else
      (false,
        { marketBuffer := addMarketToBuffer st.marketBuffer marketDoc,
          store := w.2 })

/-! ## Trade persistence service: batch writer

`trade-persistence-service/src/batch-writer.ts`. -/

/-- The state of the batch writer: the `pendingTrades` list and the
`highestOffsetByPartition` map (as an association list in insertion
order). -/
structure BatchState where
  pendingTrades : List TradeDoc
  highestOffsetByPartition : List (ℕ × ℕ)
deriving DecidableEq, Repr

/-- Outcome of the `bulkWrite` call of `flushBatchToDB`: a clean result
with `upsertedCount` and `matchedCount`, a `MongoBulkWriteError`
carrying partial counts, or any other exception. -/
inductive BulkOutcome where
  | ok (upserted matched : ℕ)
  | partErr (upserted matched : ℕ)
  | otherErr
deriving DecidableEq, Repr

/-- `Map.get` on the `highestOffsetByPartition` map, modelled as an
insertion-ordered association list with unique keys. -/
def mapGet : List (ℕ × ℕ) → ℕ → Option ℕ
  | [], _ => none
  | x :: xs, k => if x.1 = k then some x.2 else mapGet xs k

/-- `Map.set`: an existing key keeps its position and gets the new
value; a new key is appended at the end (JS maps iterate in insertion
order, and keys are unique). -/
def mapSet : List (ℕ × ℕ) → ℕ → ℕ → List (ℕ × ℕ)
  | [], k, v => [(k, v)]
  | x :: xs, k, v => if x.1 = k then (k, v) :: xs else x :: mapSet xs k v

/-- `addTradeToBatch` (`batch-writer.ts` lines 19-28): push the trade
onto `pendingTrades`, and raise `highestOffsetByPartition[partition]`
to the trade offset when the partition is untracked or the offset is
strictly higher than the tracked one. -/
def addTradeToBatch (st : BatchState) (t : TradeDoc) : BatchState :=
  { pendingTrades := st.pendingTrades ++ [t]
    highestOffsetByPartition :=
      match mapGet st.highestOffsetByPartition t.partition with
      | none => mapSet st.highestOffsetByPartition t.partition t.offset
      | some h =>
        if h < t.offset then
          mapSet st.highestOffsetByPartition t.partition t.offset
        else st.highestOffsetByPartition }

/-- Trades the bus handler delivers while a flush is suspended on one
of its awaits: each one goes through `addTradeToBatch`, mutating both
`pendingTrades` and `highestOffsetByPartition`. -/
def applyArrivals (st : BatchState) (ts : List TradeDoc) : BatchState :=
  ts.foldl addTradeToBatch st

/-- `flushBatchToDB` (`batch-writer.ts` lines 31-145, with the commit
block at lines 72-95 and its partial-error twin at lines 110-131).
The flush has two suspension points where the bus handler can run
`addTradeToBatch` concurrently: `bulkArrivals` land during the
`bulkWrite` await (before the commit block reads
`highestOffsetByPartition`), `commitArrivals` land during the
`commitOffsets` await (after `offsetsToCommit` was built from the
map). `commitOk` is the outcome of `consumer.commitOffsets`. Returns
the new state and the offsets committed to the bus (`highest + 1` per
partition, in map insertion order). Paths: empty pending → return
before any await (no arrivals interleave); bulk ok → commit block: if
the map is empty skip the commit, on commit success clear the whole
map (including entries the commit-await arrivals just raised), on
commit failure push the snapshot back onto `pendingTrades` (i.e.
behind all arrivals) leaving the map as the arrivals left it; partial
bulk error with some successes → the same commit block; partial bulk
error with zero successes or any other exception → push the snapshot
back, no commit (no commit await, so only `bulkArrivals` are in). -/
def flushBatchToDB (st : BatchState) (outcome : BulkOutcome)
    (commitOk : Bool) (bulkArrivals commitArrivals : List TradeDoc) :
    BatchState × List (ℕ × ℕ) :=
  if st.pendingTrades = [] then (st, [])
  else
    let toFlush := st.pendingTrades
    let st1 := applyArrivals { st with pendingTrades := [] } bulkArrivals
    let commitPath : BatchState × List (ℕ × ℕ) :=
      if st1.highestOffsetByPartition = [] then (st1, [])
      else
        let offsetsToCommit :=
          st1.highestOffsetByPartition.map (fun pr => (pr.1, pr.2 + 1))
        let st2 := applyArrivals st1 commitArrivals
        if commitOk then
          ({ st2 with highestOffsetByPartition := [] }, offsetsToCommit)
        else
          ({ st2 with pendingTrades := st2.pendingTrades ++ toFlush }, [])
    match outcome with
    | .ok _ _ => commitPath
    | .partErr upserted matched =>
      if 0 < upserted + matched then commitPath
      else
        ({ st1 with pendingTrades := st1.pendingTrades ++ toFlush }, [])
    | .otherErr =>
      ({ st1 with pendingTrades := st1.pendingTrades ++ toFlush }, [])

/-! ## PnL aggregation query

`getPnls` and `calculateInterval` of the frontend service. -/

/-- The three aggregate values of `calculateInterval`. -/
structure PnLInterval where
  totalPnL : ℚ
  pnlMinusFees : ℚ
  totalPosition : ℚ
deriving DecidableEq, Repr

/-- Accumulator of the loop of `calculateInterval`. -/
structure IntervalAcc where
  totalPnL : ℚ
  totalFees : ℚ
  totalBuyVolume : ℚ
  totalSellVolume : ℚ
deriving DecidableEq, Repr

/-- One iteration of the record loop of `calculateInterval`:
accumulate `pnl`, `totalFees`, `totalBuyVolume`, `totalSellVolume`
(the code uses `parseFloat` on the stored decimal strings; the decimal
values are modelled exactly as rationals). -/
def intervalStep (acc : IntervalAcc) (p : PnLDocument) : IntervalAcc :=
  { totalPnL := acc.totalPnL + p.pnl
    totalFees := acc.totalFees + p.totalFees
    totalBuyVolume := acc.totalBuyVolume + p.totalBuyVolume
    totalSellVolume := acc.totalSellVolume + p.totalSellVolume }

/-- `calculateInterval` (frontend service, lines 14-32): sum `pnl`,
`totalFees`, `totalBuyVolume`, `totalSellVolume` over the records, then
return `{totalPnL, pnlMinusFees = totalPnL − totalFees, totalPosition
= totalBuyVolume − totalSellVolume}`. -/
def calculateInterval (pnls : List PnLDocument) : PnLInterval :=
  let acc := pnls.foldl intervalStep (⟨0, 0, 0, 0⟩ : IntervalAcc)
  { totalPnL := acc.totalPnL
    pnlMinusFees := acc.totalPnL - acc.totalFees
    totalPosition := acc.totalBuyVolume - acc.totalSellVolume }

/-- `findOne({}, {sort: {marketEndTime: -1}})`: a record with maximal
`marketEndTime` (`none` iff the collection is empty; on ties the store
picks one — here, the first maximal in collection order). -/
def latestPnL? (pnls : List PnLDocument) : Option PnLDocument :=
  pnls.foldl
    (fun acc p =>
      match acc with
      | none => some p
      | some q => if q.marketEndTime < p.marketEndTime then some p else acc)
    none

/-- `p.pnl.toFixed(2)` then `parseFloat`: rounding to two decimal
places. -/
def round2 (x : ℚ) : ℚ := (round (x * 100) : ℤ) / 100

/-- One entry of the `getPnls` response. The `formatDate` presentation
("YYYY-MM-DD HH:MM") is omitted: the times are kept as instants. -/
structure PnLEntry where
  startTime : ℤ
  endTime : ℤ
  pnl : ℚ
deriving DecidableEq, Repr

/-- `getPnls` (frontend service, lines 34-99): empty collection → empty
list; otherwise three entries — the latest record alone, the records
with `marketEndTime ≥ referenceTime − 60 s`, and those within 300 s,
where `referenceTime` is the `marketEndTime` of the latest record.
The `pnl` of each entry is the `pnlMinusFees` of the window, rounded to
two decimals.
(The code sorts each window descending before summing, which does not
change the sums.) -/
def getPnls (pnls : List PnLDocument) : List PnLEntry :=
  match latestPnL? pnls with
  | none => []
  | some lastPnL =>
    let lastInterval := calculateInterval [lastPnL]
    let referenceTime := lastPnL.marketEndTime
    let oneMinuteAgo := referenceTime - 60 * 1000
    let fiveMinutesAgo := referenceTime - 5 * 60 * 1000
    let oneMinutePnls :=
      pnls.filter (fun p => oneMinuteAgo ≤ p.marketEndTime)
    let fiveMinutesPnls :=
      pnls.filter (fun p => fiveMinutesAgo ≤ p.marketEndTime)
    let oneMinute := calculateInterval oneMinutePnls
    let fiveMinutes := calculateInterval fiveMinutesPnls
    [ { startTime := lastPnL.marketStartTime
        endTime := lastPnL.marketEndTime
        pnl := round2 lastInterval.pnlMinusFees },
      { startTime := if oneMinutePnls.length > 0 then oneMinuteAgo
                     else referenceTime
        endTime := referenceTime
        pnl := round2 oneMinute.pnlMinusFees },
      { startTime := if fiveMinutesPnls.length > 0 then fiveMinutesAgo
                     else referenceTime
        endTime := referenceTime
        pnl := round2 fiveMinutes.pnlMinusFees } ]

/-- Spec-side definition: the sum of the `pnl` fields of a list of PnL
records. -/
def specSumPnl (pnls : List PnLDocument) : ℚ :=
  (pnls.map PnLDocument.pnl).sum

/-- Spec-side definition: the sum of the `totalFees` fields of a list
of PnL records. -/
def specSumFees (pnls : List PnLDocument) : ℚ :=
  (pnls.map PnLDocument.totalFees).sum


/-! ## Helper lemmas -/

/-- Characterisation of the trade-accumulation loop of `calculatePnL`:
volumes accumulate the per-side volume sums and fees accumulate the
per-side volume sums times the fee constant. -/
theorem pnlStep_foldl (trades : List Trade) : ∀ acc : PnLAcc,
    (trades.foldl pnlStep acc).buyVol = acc.buyVol + specBuyVolume trades ∧
    (trades.foldl pnlStep acc).sellVol = acc.sellVol + specSellVolume trades ∧
    (trades.foldl pnlStep acc).buyFees
      = acc.buyFees + specBuyVolume trades * TRADING_FEE_PER_MWH ∧
    (trades.foldl pnlStep acc).sellFees
      = acc.sellFees + specSellVolume trades * TRADING_FEE_PER_MWH := by
  induction trades with
  | nil => intro acc; simp [specBuyVolume, specSellVolume]
  | cons t ts ih =>
    intro acc
    rcases ih (pnlStep acc t) with ⟨h1, h2, h3, h4⟩
    rw [List.foldl_cons, h1, h2, h3, h4]
    cases ht : t.tradeType <;>
      simp only [pnlStep, ht] <;>
      simp only [specBuyVolume, specSellVolume, List.filter_cons, ht,
        decide_eq_true_eq, List.map_cons, List.sum_cons] <;>
      simp <;>
      and_intros <;>
      ring_nf


/-! ## Claim theorems -/

/-- C2: `calculatePnL(buyPrice, sellPrice, trades)` returns, in exact
decimal arithmetic, `totalBuyCost = totalBuyVolume·buyPrice +
totalBuyVolume·FEE`, `totalSellRevenue = totalSellVolume·sellPrice −
totalSellVolume·FEE`, `totalFees = (totalBuyVolume +
totalSellVolume)·FEE` and `pnl = totalSellRevenue − totalBuyCost`,
where the total volumes are the sums of the volumes of the BUY and
SELL trades of the input; and on buyPrice 50, sellPrice 55, trades
BUY 100 and SELL 50 with FEE = 0.13 it returns totalBuyCost = 5013,
totalSellRevenue = 2743.5 and pnl = −2269.5. -/
theorem C2_calculatePnL_correct (buyPrice sellPrice : ℚ)
    (trades : List Trade) :
    ((calculatePnL buyPrice sellPrice trades).totalBuyVolume
        = specBuyVolume trades ∧
      (calculatePnL buyPrice sellPrice trades).totalSellVolume
        = specSellVolume trades ∧
      (calculatePnL buyPrice sellPrice trades).totalBuyCost
        = specBuyVolume trades * buyPrice
          + specBuyVolume trades * TRADING_FEE_PER_MWH ∧
      (calculatePnL buyPrice sellPrice trades).totalSellRevenue
        = specSellVolume trades * sellPrice
          - specSellVolume trades * TRADING_FEE_PER_MWH ∧
      (calculatePnL buyPrice sellPrice trades).totalFees
        = (specBuyVolume trades + specSellVolume trades)
          * TRADING_FEE_PER_MWH ∧
      (calculatePnL buyPrice sellPrice trades).pnl
        = (calculatePnL buyPrice sellPrice trades).totalSellRevenue
          - (calculatePnL buyPrice sellPrice trades).totalBuyCost) ∧
    (calculatePnL 50 55 [⟨.BUY, 100, 0⟩, ⟨.SELL, 50, 0⟩]).totalBuyCost
        = 5013 ∧
    (calculatePnL 50 55 [⟨.BUY, 100, 0⟩, ⟨.SELL, 50, 0⟩]).totalSellRevenue
        = 5487 / 2 ∧
    (calculatePnL 50 55 [⟨.BUY, 100, 0⟩, ⟨.SELL, 50, 0⟩]).pnl
        = -(4539 / 2) := by
  refine ⟨?_, by norm_num [calculatePnL, pnlStep, TRADING_FEE_PER_MWH],
    by norm_num [calculatePnL, pnlStep, TRADING_FEE_PER_MWH],
    by norm_num [calculatePnL, pnlStep, TRADING_FEE_PER_MWH]⟩
  rcases pnlStep_foldl trades (⟨0, 0, 0, 0⟩ : PnLAcc) with ⟨h1, h2, h3, h4⟩
  simp only [calculatePnL, h1, h2, h3, h4, zero_add]
  and_intros <;> ring_nf


/-- Every offset in the log of one `commitLoop` run is reachable from
`next` through offsets that were in `completed` at entry: for any
committed `k` and any `j` with `next ≤ j ≤ k`, either `j = next` or
`j` was in `completed`. -/
theorem commitLoop_log_mem (busOk : ℕ → Bool) :
    ∀ (fuel next : ℕ) (completed : List ℕ) (last : Option ℕ) (k : ℕ),
      k ∈ (commitLoop busOk next completed last fuel).2.2 →
      ∀ j, next ≤ j → j ≤ k → j = next ∨ j ∈ completed := by
  intro fuel
  induction fuel with
  | zero =>
    intro next completed last k hk
    simp [commitLoop] at hk
  | succ fuel ih =>
    intro next completed last k hk j hnj hjk
    rw [commitLoop] at hk
    by_cases hbus : busOk next = true
    · rw [if_pos hbus] at hk
      simp only at hk
      by_cases hmem : (next + 1) ∈ completed.erase next
      · rw [if_pos hmem] at hk
        rcases List.mem_cons.mp hk with hk | hk
        · subst hk
          left
          omega
        · by_cases hjn : j = next
          · exact Or.inl hjn
          · have hj1 : next + 1 ≤ j := by omega
            rcases ih (next + 1) (completed.erase next) (some next) k hk j hj1
                hjk with h | h
            · right
              exact List.mem_of_mem_erase (h ▸ hmem)
            · right
              exact List.mem_of_mem_erase h
      · rw [if_neg hmem] at hk
        simp only [List.mem_singleton] at hk
        subst hk
        left
        omega
    · rw [if_neg hbus] at hk
      simp at hk


/-- C1 counterexample: on a fresh partition (nothing committed yet),
deliver offsets 10, 11, 12 and let 12 finish first. `commitOffsetsInOrder`
then takes the `lastCommitted == nil` branch, picks `min(completed) = 12`
and commits it at once: the bus commit log is `[12]` while 10 and 11 are
still in flight, so a commit to the bus occurs before offset 10
completes, contrary to the claim. -/
theorem C1_counterexample :
    runEvents initialPartState
        [Ev.deliver 10, Ev.deliver 11, Ev.deliver 12,
          Ev.complete 12 (fun _ => true)]
      = (⟨[10, 11], [], some 12⟩, [12]) ∧
    ([12] : List ℕ) ≠ [] :=
  ⟨by rfl, by decide⟩

/-- C1 amended: once `lastCommitted` is set to `l`, C4 commits an offset
`k` only when every offset in `[l+1 .. k]` is in `completed` (so in
particular every offset in `[l+1 .. k-1]` is); when `lastCommitted` is
still unset the first commit is `min(completed)`, which may skip earlier
in-flight offsets. For the scenario: with offset 9 of the partition
already committed, processing 10, 11, 12 concurrently where 12 finishes
first, then 11, then 10, commits nothing until 10 completes, and at that
moment 10, 11, 12 are committed in one monotonic run (the bus receives
11, 12, 13, leaving the committed position at 13). -/
theorem C1_amended (st : PartState) (busOk : ℕ → Bool) (l : ℕ)
    (hl : st.lastCommitted = some l) :
    (∀ k ∈ (commitOffsetsInOrder busOk st).2,
        ∀ j, l + 1 ≤ j → j ≤ k → j ∈ st.completed) ∧
    runEvents ⟨[], [], some 9⟩
        [Ev.deliver 10, Ev.deliver 11, Ev.deliver 12,
          Ev.complete 12 (fun _ => true), Ev.complete 11 (fun _ => true)]
      = (⟨[10], [12, 11], some 9⟩, []) ∧
    runEvents ⟨[], [], some 9⟩
        [Ev.deliver 10, Ev.deliver 11, Ev.deliver 12,
          Ev.complete 12 (fun _ => true), Ev.complete 11 (fun _ => true),
          Ev.complete 10 (fun _ => true)]
      = (⟨[], [], some 12⟩, [10, 11, 12]) := by
  refine ⟨?_, by rfl, by rfl⟩
  intro k hk j hj1 hjk
  rw [commitOffsetsInOrder] at hk
  by_cases hc : st.completed = []
  · rw [if_pos hc] at hk
    simp at hk
  · rw [if_neg hc] at hk
    simp only [hl] at hk
    by_cases hmem : (l + 1) ∈ st.completed
    · rw [if_pos hmem] at hk
      simp only at hk
      rcases commitLoop_log_mem busOk st.completed.length (l + 1)
          st.completed (some l) k hk j hj1 hjk with h | h
      · exact h ▸ hmem
      · exact h
    · rw [if_neg hmem] at hk
      simp at hk

/-- Witness for C1 amended: with `lastCommitted = 4` and
`completed = {5, 7}`, offset 5 is committed and 5 is indeed in
`completed`. -/
theorem C1_amended_witness :
    5 ∈ (commitOffsetsInOrder (fun _ => true) ⟨[], [5, 7], some 4⟩).2 ∧
    5 ∈ ([5, 7] : List ℕ) :=
  ⟨by decide,
    (C1_amended ⟨[], [5, 7], some 4⟩ (fun _ => true) 4 rfl).1 5 (by decide)
      5 (by omega) (by omega)⟩


/-- C6 counterexample: with `inFlight = {}` and `completed = {5}`
(offset 5 processed but its commit still pending), a redelivery of
offset 5 is in `inFlight ∪ completed`, yet the handler starts a new
processing task (`true`) and mutates the tracking state by re-adding 5
to `inFlight` — the duplicate check of `eachMessage` consults only
`inFlight`. -/
theorem C6_counterexample :
    handleDeliver ⟨[], [5], some 4⟩ 5 = (⟨[5], [5], some 4⟩, true) ∧
    5 ∈ ([5] : List ℕ) ∧
    (⟨[5], [5], some 4⟩ : PartState) ≠ ⟨[], [5], some 4⟩ := by
  decide

/-- C6 amended: the bus handler skips a market message, leaving the
tracking state unchanged and starting no task, exactly when its offset
is already in `inFlight`; an offset that is only in `completed` (for
instance awaiting commit) is not skipped — it is added back to
`inFlight` and a new processing task starts (the idempotency check
inside the task later turns the reprocessing into a no-op write). -/
theorem C6_amended (st : PartState) (off : ℕ) :
    (off ∈ st.inFlight → handleDeliver st off = (st, false)) ∧
    (off ∉ st.inFlight →
      handleDeliver st off = ({ st with inFlight := st.inFlight ++ [off] }, true)) := by
  constructor <;> intro h <;> simp [handleDeliver, setAdd, h]

/-- Witness for C6 amended: offset 3 in flight is skipped; offset 4
(not in flight, in `completed`) starts a task. -/
theorem C6_amended_witness :
    handleDeliver ⟨[3], [4], none⟩ 3 = (⟨[3], [4], none⟩, false) ∧
    handleDeliver ⟨[3], [4], none⟩ 4 = (⟨[3, 4], [4], none⟩, true) :=
  ⟨(C6_amended ⟨[3], [4], none⟩ 3).1 (by decide),
    (C6_amended ⟨[3], [4], none⟩ 4).2 (by decide)⟩


/-- C5: the claimed shortcut does not exist in the code. With a trade
in the buffer inside `[0, 100]` and `lastTradeTime t0 = 150 > 100 = end`
captured at entry, and no further trade arriving (every poll observes
the same value 150), the wait loop never exits early: its condition
demands a NEW observation (`current !== initial`), which the unchanged
`t0` can never satisfy, so the call incurs the full `WAIT_TIMEOUT_MS`
(`waitOutcome = some none` = the full-timeout exit, after all 30 polls).
The handler merely logs "proceeding immediately" in this situation
without returning, so its own log message documents the intended
shortcut that the code does not perform. -/
theorem C5_wait_shortcut_missing :
    hasTradesInRange 0 100 [⟨.BUY, 1, 50, 0, 0, 0⟩] = true ∧
    (100 : ℤ) < 150 ∧
    waitForTradeAfterEndTimeOrTimeout 100 (some 150) (fun _ => some 150)
      = none ∧
    (getTradesForPeriodMem [⟨.BUY, 1, 50, 0, 0, 0⟩] [⟨.BUY, 1, 50, 0, 0, 0⟩]
        (some 150) (fun _ => some 150) none 0 100).waitOutcome
      = some none := by
  refine ⟨by decide, by decide, by decide, ?_⟩
  simp only [getTradesForPeriodMem, hasTradesInRange]
  decide


/-- C10: once a queried range `[qStart, qEnd]` (with `qStart ≤ qEnd`)
exists, `isPossibleOutOfOrderTrade(t)` returns `true` exactly when
`t ≤ qEnd` — so besides the in-range trades it flags every trade
strictly before `qStart` — and before any query it returns `false` for
every trade time. -/
theorem C10_outOfOrder_iff (a b t : ℤ) (hab : a ≤ b) :
    (isPossibleOutOfOrderTrade (some a) (some b) t = true ↔ t ≤ b) ∧
    isPossibleOutOfOrderTrade none none t = false := by
  refine ⟨?_, rfl⟩
  by_cases h : a ≤ t ∧ t ≤ b
  · simp [isPossibleOutOfOrderTrade, h, h.2]
  · simp only [isPossibleOutOfOrderTrade, if_neg h, decide_eq_true_eq]
    omega

/-- Witness for C10: range `[0, 10]`; a trade at `t = -3 < qStart` is
flagged, a trade at `t = 11 > qEnd` is not, and with no range nothing
is flagged. -/
theorem C10_outOfOrder_iff_witness :
    isPossibleOutOfOrderTrade (some 0) (some 10) (-3) = true ∧
    isPossibleOutOfOrderTrade (some 0) (some 10) 11 = false ∧
    isPossibleOutOfOrderTrade none none 5 = false := by
  refine ⟨?_, ?_, (C10_outOfOrder_iff 0 10 5 (by omega)).2⟩
  · exact (C10_outOfOrder_iff 0 10 (-3) (by omega)).1.mpr (by omega)
  · have h := (C10_outOfOrder_iff 0 10 11 (by omega)).1
    by_contra hb
    have : (11 : ℤ) ≤ 10 := h.mp (by
      revert hb
      cases isPossibleOutOfOrderTrade (some 0) (some 10) 11 <;> simp)
    omega

/-- C8 counterexample: the deque variant of `removeOldTrades` in
`range-query.ts` stops at the first non-old trade. On the
out-of-chronological-order buffer `[t1 (time 0), t2 (time -1)]` with
cutoff 0, it removes nothing, so trade `t2` with `time < cutoff`
remains in the buffer after the sweep, contrary to the claim for
buffers whose trades are not in chronological order. -/
theorem C8_counterexample :
    removeOldTradesFrontTrim 0
        [⟨.BUY, 1, 0, 0, 0, 0⟩, ⟨.SELL, 1, -1, 0, 1, 0⟩]
      = [⟨.BUY, 1, 0, 0, 0, 0⟩, ⟨.SELL, 1, -1, 0, 1, 0⟩] ∧
    (⟨.SELL, 1, -1, 0, 1, 0⟩ : TradeDoc).time < 0 ∧
    (⟨.SELL, 1, -1, 0, 1, 0⟩ : TradeDoc) ∈
      removeOldTradesFrontTrim 0
        [⟨.BUY, 1, 0, 0, 0, 0⟩, ⟨.SELL, 1, -1, 0, 1, 0⟩] := by
  refine ⟨by rfl, by decide, ?_⟩
  rw [show removeOldTradesFrontTrim 0
        [⟨.BUY, 1, 0, 0, 0, 0⟩, ⟨.SELL, 1, -1, 0, 1, 0⟩]
      = [⟨.BUY, 1, 0, 0, 0, 0⟩, ⟨.SELL, 1, -1, 0, 1, 0⟩] from rfl]
  simp

/-- The front-trim sweep is correct on chronologically ordered buffers:
it removes every trade older than the cutoff and keeps every trade at
or after it. -/
theorem frontTrim_sorted (cutoff : ℤ) :
    ∀ buf : List TradeDoc,
      buf.Pairwise (fun a b => a.time ≤ b.time) →
      (∀ t ∈ removeOldTradesFrontTrim cutoff buf, ¬ t.time < cutoff) ∧
      (∀ t ∈ buf, cutoff ≤ t.time →
        t ∈ removeOldTradesFrontTrim cutoff buf) := by
  intro buf
  induction buf with
  | nil => intro _; simp [removeOldTradesFrontTrim]
  | cons x xs ih =>
    intro hp
    rcases List.pairwise_cons.mp hp with ⟨hx, hxs⟩
    by_cases hlt : x.time < cutoff
    · have hstep : removeOldTradesFrontTrim cutoff (x :: xs)
          = removeOldTradesFrontTrim cutoff xs := by
        simp [removeOldTradesFrontTrim, List.dropWhile_cons, hlt]
      rcases ih hxs with ⟨h1, h2⟩
      refine ⟨by rw [hstep]; exact h1, ?_⟩
      intro t ht hct
      rcases List.mem_cons.mp ht with rfl | ht
      · omega
      · rw [hstep]
        exact h2 t ht hct
    · have hstep : removeOldTradesFrontTrim cutoff (x :: xs) = x :: xs := by
        simp [removeOldTradesFrontTrim, List.dropWhile_cons, hlt]
      rw [hstep]
      refine ⟨?_, fun t ht _ => ht⟩
      intro t ht
      rcases List.mem_cons.mp ht with rfl | ht
      · exact hlt
      · have := hx t ht
        omega

/-- C8 amended: the array variant of `removeOldTrades`
(`memory-buffer.ts`) satisfies the claim for EVERY buffer contents:
after it runs no trade with `time < cutoff` remains and every trade
with `time ≥ cutoff` (including `time = cutoff`) is retained. The
deque front-trim variant (`range-query.ts`) guarantees this only when
the buffer is in chronological (non-decreasing time) order, because it
stops at the first trade that is not old. -/
theorem C8_amended (cutoff : ℤ) (buf : List TradeDoc) :
    ((∀ t ∈ removeOldTrades cutoff buf, ¬ t.time < cutoff) ∧
      (∀ t ∈ buf, cutoff ≤ t.time → t ∈ removeOldTrades cutoff buf)) ∧
    (buf.Pairwise (fun a b => a.time ≤ b.time) →
      (∀ t ∈ removeOldTradesFrontTrim cutoff buf, ¬ t.time < cutoff) ∧
      (∀ t ∈ buf, cutoff ≤ t.time →
        t ∈ removeOldTradesFrontTrim cutoff buf)) := by
  refine ⟨⟨?_, ?_⟩, frontTrim_sorted cutoff buf⟩
  · intro t ht
    have := List.of_mem_filter ht
    simpa using this
  · intro t ht hct
    refine List.mem_filter.mpr ⟨ht, ?_⟩
    simpa using not_lt.mpr hct

/-- Witness for C8 amended: cutoff 0, sorted buffer
`[t2 (time -1), t1 (time 0)]`; the boundary trade `t1` is retained by
both variants. -/
theorem C8_amended_witness :
    (⟨.BUY, 1, 0, 0, 0, 0⟩ : TradeDoc) ∈
      removeOldTrades 0 [⟨.SELL, 1, -1, 0, 1, 0⟩, ⟨.BUY, 1, 0, 0, 0, 0⟩] ∧
    (⟨.BUY, 1, 0, 0, 0, 0⟩ : TradeDoc) ∈
      removeOldTradesFrontTrim 0
        [⟨.SELL, 1, -1, 0, 1, 0⟩, ⟨.BUY, 1, 0, 0, 0, 0⟩] :=
  ⟨(C8_amended 0 [⟨.SELL, 1, -1, 0, 1, 0⟩, ⟨.BUY, 1, 0, 0, 0, 0⟩]).1.2
      ⟨.BUY, 1, 0, 0, 0, 0⟩ (by simp) (by decide),
    ((C8_amended 0 [⟨.SELL, 1, -1, 0, 1, 0⟩, ⟨.BUY, 1, 0, 0, 0, 0⟩]).2
        (by decide)).2
      ⟨.BUY, 1, 0, 0, 0, 0⟩ (by simp) (by decide)⟩


/-- C9: the routing decision of `getTradesForPeriod` is fixed at entry:
whenever `hasTradesInRange(start, end)` holds on the entry buffer, the
response is served from the (post-wait) memory buffer and the
persistence service is never consulted; in particular, if the retention
sweep removes all in-range trades during the wait, the call returns an
empty trade list and still does not consult persistence. -/
theorem C9_route_fixed_at_entry (entryBuf afterWaitBuf : List TradeDoc)
    (initial : Option ℤ) (obs : ℕ → Option ℤ)
    (persist : Option (List TradeDoc)) (startTime endTime : ℤ)
    (hmem : hasTradesInRange startTime endTime entryBuf = true) :
    ((getTradesForPeriodMem entryBuf afterWaitBuf initial obs persist
        startTime endTime).usedPersistence = false ∧
      (getTradesForPeriodMem entryBuf afterWaitBuf initial obs persist
        startTime endTime).trades
        = getTradesFromBuffer startTime endTime afterWaitBuf) ∧
    (∀ cutoff : ℤ,
      (∀ t ∈ entryBuf, startTime ≤ t.time → t.time ≤ endTime →
        t.time < cutoff) →
      (getTradesForPeriodMem entryBuf (removeOldTrades cutoff entryBuf)
        initial obs persist startTime endTime).trades = []) := by
  refine ⟨⟨?_, ?_⟩, ?_⟩
  · simp [getTradesForPeriodMem, hmem]
  · simp [getTradesForPeriodMem, hmem]
  · intro cutoff hswept
    simp only [getTradesForPeriodMem, hmem, if_true]
    rw [List.eq_nil_iff_forall_not_mem]
    intro t ht
    have ht1 := List.mem_filter.mp ht
    have ht2 := List.mem_filter.mp ht1.1
    have hrange := ht1.2
    simp only [decide_eq_true_eq] at hrange
    have hold : ¬ t.time < cutoff := by simpa using ht2.2
    exact hold (hswept t ht2.1 hrange.1 hrange.2)

/-- Witness for C9: a single trade at time 5 is in range `[0, 10]` at
entry; after a sweep with cutoff 6 removed it, the response is empty
and persistence is not consulted. -/
theorem C9_route_fixed_at_entry_witness :
    (getTradesForPeriodMem [⟨.BUY, 1, 5, 0, 0, 0⟩]
        (removeOldTrades 6 [⟨.BUY, 1, 5, 0, 0, 0⟩])
        none (fun _ => none) (some [⟨.SELL, 2, 7, 0, 1, 0⟩]) 0 10).trades
      = [] ∧
    (getTradesForPeriodMem [⟨.BUY, 1, 5, 0, 0, 0⟩]
        (removeOldTrades 6 [⟨.BUY, 1, 5, 0, 0, 0⟩])
        none (fun _ => none) (some [⟨.SELL, 2, 7, 0, 1, 0⟩])
        0 10).usedPersistence = false :=
  ⟨(C9_route_fixed_at_entry [⟨.BUY, 1, 5, 0, 0, 0⟩]
        (removeOldTrades 6 [⟨.BUY, 1, 5, 0, 0, 0⟩]) none (fun _ => none)
        (some [⟨.SELL, 2, 7, 0, 1, 0⟩]) 0 10 (by decide)).2 6
      (by decide),
    (C9_route_fixed_at_entry [⟨.BUY, 1, 5, 0, 0, 0⟩]
        (removeOldTrades 6 [⟨.BUY, 1, 5, 0, 0, 0⟩]) none (fun _ => none)
        (some [⟨.SELL, 2, 7, 0, 1, 0⟩]) 0 10 (by decide)).1.1⟩

/-- Looking up the updated key of `mapSet` yields the new value. -/
theorem mapGet_mapSet_self (m : List (ℕ × ℕ)) (p v : ℕ) :
    mapGet (mapSet m p v) p = some v := by
  induction m with
  | nil => simp [mapGet, mapSet]
  | cons x xs ih =>
    by_cases hx : x.1 = p
    · simp [mapSet, mapGet, hx]
    · simp [mapSet, mapGet, hx, ih]

/-- `mapSet` does not touch other keys. -/
theorem mapGet_mapSet_other (m : List (ℕ × ℕ)) (p v k : ℕ)
    (hk : k ≠ p) : mapGet (mapSet m p v) k = mapGet m k := by
  have hpk : ¬ p = k := fun h => hk h.symm
  induction m with
  | nil => simp [mapGet, mapSet, hpk]
  | cons x xs ih =>
    by_cases hx : x.1 = p
    · simp [mapSet, mapGet, hx, hpk]
    · by_cases hxk : x.1 = k
      · simp [mapSet, mapGet, hx, hxk, hk]
      · simp [mapSet, mapGet, hx, hxk, ih]

/-- `addTradeToBatch` never lowers or removes a tracked highest
offset: a partition tracked at `h` is still tracked afterwards, at
some `h' ≥ h`. -/
theorem addTradeToBatch_mapGet_mono (st : BatchState) (t : TradeDoc)
    (k h : ℕ)
    (hk : mapGet st.highestOffsetByPartition k = some h) :
    ∃ h', h ≤ h' ∧
      mapGet (addTradeToBatch st t).highestOffsetByPartition k
        = some h' := by
  simp only [addTradeToBatch]
  by_cases hkp : k = t.partition
  · subst hkp
    rw [hk]
    by_cases hlt : h < t.offset
    · exact ⟨t.offset, le_of_lt hlt, by simp [hlt, mapGet_mapSet_self]⟩
    · exact ⟨h, le_rfl, by simp [hlt, hk]⟩
  · refine ⟨h, le_rfl, ?_⟩
    cases hg : mapGet st.highestOffsetByPartition t.partition with
    | none => simp [mapGet_mapSet_other _ _ _ _ hkp, hk]
    | some g =>
      by_cases hlt : g < t.offset
      · simp [hlt, mapGet_mapSet_other _ _ _ _ hkp, hk]
      · simp [hlt, hk]

/-- Folding arrivals over a state never lowers or removes a tracked
highest offset. -/
theorem applyArrivals_mapGet_mono (ts : List TradeDoc) :
    ∀ (st : BatchState) (k h : ℕ),
      mapGet st.highestOffsetByPartition k = some h →
      ∃ h', h ≤ h' ∧
        mapGet (applyArrivals st ts).highestOffsetByPartition k
          = some h' := by
  induction ts with
  | nil => exact fun st k h hk => ⟨h, le_rfl, hk⟩
  | cons t ts ih =>
    intro st k h hk
    obtain ⟨h1, hh1, hk1⟩ := addTradeToBatch_mapGet_mono st t k h hk
    obtain ⟨h2, hh2, hk2⟩ := ih (addTradeToBatch st t) k h1 hk1
    exact ⟨h2, le_trans hh1 hh2, by simpa [applyArrivals] using hk2⟩

/-- Arrivals compose: folding two arrival batches one after the other
is folding their concatenation. -/
theorem applyArrivals_append (st : BatchState)
    (a b : List TradeDoc) :
    applyArrivals (applyArrivals st a) b = applyArrivals st (a ++ b) := by
  simp [applyArrivals, List.foldl_append]

/-- A non-empty highest-offset map stays non-empty under arrivals. -/
theorem applyArrivals_map_ne_nil (st : BatchState) (ts : List TradeDoc)
    (h : st.highestOffsetByPartition ≠ []) :
    (applyArrivals st ts).highestOffsetByPartition ≠ [] := by
  obtain ⟨x, xs, hx⟩ : ∃ x xs, st.highestOffsetByPartition = x :: xs := by
    cases hm : st.highestOffsetByPartition with
    | nil => exact absurd hm h
    | cons x xs => exact ⟨x, xs, rfl⟩
  have hget : mapGet st.highestOffsetByPartition x.1 = some x.2 := by
    rw [hx]; simp [mapGet]
  obtain ⟨h', _, hk⟩ := applyArrivals_mapGet_mono ts st x.1 x.2 hget
  intro hnil
  rw [hnil] at hk
  simp [mapGet] at hk

/-- C7 counterexample: pending `[a]` with tracked highest offset 7 on
partition 0; the bulk upsert succeeds; while the flush awaits the
offset commit (which fails), trade `b` (partition 0, offset 8) arrives
through `addTradeToBatch`. The code appends the snapshot to the END of
`pendingTrades` (`pendingTrades.push(...tradesToFlush)`), giving
`[b, a]` — not `[a, b]` as restoring to the front would; the arrival
raised the tracked map from `{0: 7}` to `{0: 8}`, so it is not left
unchanged; and the next retry commits offset 9, not the offset 8 the
failed attempt carried. -/
theorem C7_counterexample :
    flushBatchToDB ⟨[⟨.BUY, 1, 0, 0, 7, 0⟩], [(0, 7)]⟩ (.ok 1 0) false
        [] [⟨.SELL, 2, 1, 0, 8, 0⟩]
      = (⟨[⟨.SELL, 2, 1, 0, 8, 0⟩, ⟨.BUY, 1, 0, 0, 7, 0⟩], [(0, 8)]⟩, []) ∧
    ([⟨.SELL, 2, 1, 0, 8, 0⟩, ⟨.BUY, 1, 0, 0, 7, 0⟩] : List TradeDoc)
      ≠ [⟨.BUY, 1, 0, 0, 7, 0⟩, ⟨.SELL, 2, 1, 0, 8, 0⟩] ∧
    ([(0, 8)] : List (ℕ × ℕ)) ≠ [(0, 7)] ∧
    (flushBatchToDB
        ⟨[⟨.SELL, 2, 1, 0, 8, 0⟩, ⟨.BUY, 1, 0, 0, 7, 0⟩], [(0, 8)]⟩
        (.ok 2 0) true [] []).2 = [(0, 9)] ∧
    ((0, 9) : ℕ × ℕ) ≠ (0, 8) := by
  decide

/-- C7 amended: if the bulk upsert succeeds but the subsequent offset
commit fails, the snapshot `toFlush` is restored to the BACK of the
pending list (behind any trades added while the flush was in
progress), and the failure path neither clears nor lowers the tracked
highest-offset map: the state is exactly the arrivals folded through
`addTradeToBatch` with `toFlush` re-appended, every partition tracked
at the start is still tracked at an offset at least as high, and —
when no trades arrive during the flush — the state is exactly the
pre-flush state, so the next retry commits exactly the same
`highestSeen + 1` offsets. -/
theorem C7_amended (st : BatchState) (u m u2 m2 : ℕ)
    (bulkArrivals commitArrivals : List TradeDoc)
    (hpend : st.pendingTrades ≠ [])
    (hoff : st.highestOffsetByPartition ≠ []) :
    flushBatchToDB st (.ok u m) false bulkArrivals commitArrivals
      = ({ applyArrivals { st with pendingTrades := [] }
            (bulkArrivals ++ commitArrivals) with
          pendingTrades :=
            (applyArrivals { st with pendingTrades := [] }
              (bulkArrivals ++ commitArrivals)).pendingTrades
              ++ st.pendingTrades }, []) ∧
    (∀ p h, mapGet st.highestOffsetByPartition p = some h →
      ∃ h', h ≤ h' ∧
        mapGet (flushBatchToDB st (.ok u m) false bulkArrivals
            commitArrivals).1.highestOffsetByPartition p = some h') ∧
    flushBatchToDB st (.ok u m) false [] [] = (st, []) ∧
    (flushBatchToDB st (.ok u2 m2) true [] []).2
      = st.highestOffsetByPartition.map (fun pr => (pr.1, pr.2 + 1)) := by
  have hoff1 : (applyArrivals { st with pendingTrades := [] }
      bulkArrivals).highestOffsetByPartition ≠ [] :=
    applyArrivals_map_ne_nil _ bulkArrivals hoff
  have hfail : flushBatchToDB st (.ok u m) false bulkArrivals
      commitArrivals
      = ({ applyArrivals { st with pendingTrades := [] }
            (bulkArrivals ++ commitArrivals) with
          pendingTrades :=
            (applyArrivals { st with pendingTrades := [] }
              (bulkArrivals ++ commitArrivals)).pendingTrades
              ++ st.pendingTrades }, []) := by
    rw [← applyArrivals_append]
    simp [flushBatchToDB, hpend, hoff1]
  refine ⟨hfail, ?_, ?_, ?_⟩
  · intro p h hp
    rw [hfail]
    obtain ⟨h', hh', hget⟩ := applyArrivals_mapGet_mono
      (bulkArrivals ++ commitArrivals) { st with pendingTrades := [] }
      p h hp
    exact ⟨h', hh', hget⟩
  · simp [flushBatchToDB, hpend, hoff, applyArrivals]
  · simp [flushBatchToDB, hpend, hoff, applyArrivals]

/-- Witness for C7 amended, at the input of the counterexample
scenario (arrival of partition 0 offset 8 during the commit await)
and at the arrival-free retry. -/
theorem C7_amended_witness :
    flushBatchToDB ⟨[⟨.BUY, 1, 0, 0, 7, 0⟩], [(0, 7)]⟩ (.ok 1 0) false
        [] [⟨.SELL, 2, 1, 0, 8, 0⟩]
      = (⟨[⟨.SELL, 2, 1, 0, 8, 0⟩, ⟨.BUY, 1, 0, 0, 7, 0⟩], [(0, 8)]⟩, []) ∧
    flushBatchToDB ⟨[⟨.BUY, 1, 0, 0, 7, 0⟩], [(0, 7)]⟩ (.ok 1 0) false
        [] []
      = (⟨[⟨.BUY, 1, 0, 0, 7, 0⟩], [(0, 7)]⟩, []) ∧
    (flushBatchToDB ⟨[⟨.BUY, 1, 0, 0, 7, 0⟩], [(0, 7)]⟩ (.ok 2 0) true
        [] []).2 = [(0, 8)] :=
  ⟨((C7_amended ⟨[⟨.BUY, 1, 0, 0, 7, 0⟩], [(0, 7)]⟩ 1 0 2 0 []
      [⟨.SELL, 2, 1, 0, 8, 0⟩] (by decide) (by decide)).1).trans
      (by decide),
    (C7_amended ⟨[⟨.BUY, 1, 0, 0, 7, 0⟩], [(0, 7)]⟩ 1 0 2 0 []
      [⟨.SELL, 2, 1, 0, 8, 0⟩] (by decide) (by decide)).2.2.1,
    ((C7_amended ⟨[⟨.BUY, 1, 0, 0, 7, 0⟩], [(0, 7)]⟩ 1 0 2 0 []
      [⟨.SELL, 2, 1, 0, 8, 0⟩] (by decide) (by decide)).2.2.2).trans
      (by decide)⟩


/-- A market document just pushed by `addMarketToBuffer` is in the
resulting buffer (the FIFO trim only ever drops the front, and trimming
happens only when the buffer is non-empty). -/
theorem mem_addMarketToBuffer (buf : List MarketDocument)
    (m : MarketDocument) : m ∈ addMarketToBuffer buf m := by
  unfold addMarketToBuffer
  by_cases h : MARKET_BUFFER_SIZE < (buf ++ [m]).length
  · rw [if_pos h]
    cases buf with
    | nil => simp [MARKET_BUFFER_SIZE] at h
    | cons a bs =>
      rw [List.cons_append, List.tail_cons]
      simp
  · rw [if_neg h]
    simp

/-- C3: processing the same market message twice in sequence (identical
`startTime` and `endTime`, any trade snapshot and wall clock on the
second call) leaves the state exactly as after processing it once, the
second call returns `true` (skipped), and the store holds exactly one
market document and exactly one PnL document for that
`(startTime, endTime)` — provided the initial state held none (and no
market with the same `(partition, offset)`, which would abort the first
write as a duplicate). -/
theorem C3_processMarket_idempotent (msg : RawMarketMessage)
    (partition offset : ℕ) (trades1 trades2 : List Trade)
    (now1 now2 : ℤ) (st : CalcState) (r1 r2 : Bool × CalcState)
    (hbuf : ∀ m ∈ st.marketBuffer,
      ¬(m.startTime = msg.startTime ∧ m.endTime = msg.endTime))
    (hmkt : ∀ m ∈ st.store.markets,
      ¬(m.startTime = msg.startTime ∧ m.endTime = msg.endTime))
    (hoff : ∀ m ∈ st.store.markets,
      ¬(m.partition = partition ∧ m.offset = offset))
    (hpnl : ∀ p ∈ st.store.pnls,
      ¬(p.marketStartTime = msg.startTime ∧
        p.marketEndTime = msg.endTime))
    (h1 : processMarketMessage msg partition offset trades1 now1 st = r1)
    (h2 : processMarketMessage msg partition offset trades2 now2 r1.2
      = r2) :
    r2.1 = true ∧ r2.2 = r1.2 ∧
    (r1.2.store.markets.filter (fun m =>
      m.startTime = msg.startTime ∧ m.endTime = msg.endTime)).length = 1 ∧
    (r1.2.store.pnls.filter (fun p =>
      p.marketStartTime = msg.startTime ∧
        p.marketEndTime = msg.endTime)).length = 1 := by
  have hproc : isMarketProcessed st msg.startTime msg.endTime = false := by
    simp only [isMarketProcessed, Bool.or_eq_false_iff, List.any_eq_false,
      decide_eq_true_eq]
    exact ⟨fun m hm => hbuf m hm, fun m hm => hmkt m hm⟩
  have hdup : (st.store.markets.any (fun x =>
        x.partition = partition ∧ x.offset = offset)
      || st.store.pnls.any (fun x =>
        x.marketStartTime = msg.startTime ∧
          x.marketEndTime = msg.endTime)) = false := by
    simp only [Bool.or_eq_false_iff, List.any_eq_false, decide_eq_true_eq]
    exact ⟨fun m hm => hoff m hm, fun q hq => hpnl q hq⟩
  set marketDoc : MarketDocument :=
    ⟨msg.buyPrice, msg.sellPrice, msg.startTime, msg.endTime,
      partition, offset, now1⟩ with hmdoc
  have hr1 : r1 = (false,
      { marketBuffer := addMarketToBuffer st.marketBuffer marketDoc,
        store := { markets := st.store.markets ++ [marketDoc],
                   pnls := st.store.pnls ++
                     [⟨msg.startTime, msg.endTime, msg.buyPrice,
                       msg.sellPrice,
                       (calculatePnL msg.buyPrice msg.sellPrice
                         trades1).totalBuyVolume,
                       (calculatePnL msg.buyPrice msg.sellPrice
                         trades1).totalSellVolume,
                       (calculatePnL msg.buyPrice msg.sellPrice
                         trades1).totalBuyCost,
                       (calculatePnL msg.buyPrice msg.sellPrice
                         trades1).totalSellRevenue,
                       (calculatePnL msg.buyPrice msg.sellPrice
                         trades1).totalFees,
                       (calculatePnL msg.buyPrice msg.sellPrice
                         trades1).pnl, now1⟩] } }) := by
    rw [← h1]
    simp only [processMarketMessage, hproc, Bool.false_eq_true, if_false,
      writeMarketAndPnL, hdup, Bool.false_eq_true, if_false]
  have hmem : marketDoc ∈ r1.2.marketBuffer := by
    rw [hr1]
    exact mem_addMarketToBuffer st.marketBuffer marketDoc
  have hproc2 : isMarketProcessed r1.2 msg.startTime msg.endTime = true := by
    simp only [isMarketProcessed, Bool.or_eq_true, List.any_eq_true,
      decide_eq_true_eq]
    exact Or.inl ⟨marketDoc, hmem, rfl, rfl⟩
  have hr2 : r2 = (true, r1.2) := by
    rw [← h2]
    simp only [processMarketMessage, hproc2, if_true]
  refine ⟨by rw [hr2], by rw [hr2], ?_, ?_⟩
  · rw [hr1]
    simp only [List.filter_append]
    rw [List.filter_eq_nil_iff.mpr (by
      intro m hm
      simpa using hmkt m hm)]
    simp
  · rw [hr1]
    simp only [List.filter_append]
    rw [List.filter_eq_nil_iff.mpr (by
      intro q hq
      simpa using hpnl q hq)]
    simp

/-- Witness for C3: from an empty state, processing the market message
`{buy 50, sell 55, [0, 60000]}` twice with one BUY trade; the second
call reports skipped, the state is unchanged, and exactly one market
and one PnL exist for the interval. -/
theorem C3_processMarket_idempotent_witness :
    (processMarketMessage ⟨50, 55, 0, 60000⟩ 0 3 [⟨.BUY, 100, 10⟩] 70000
        (processMarketMessage ⟨50, 55, 0, 60000⟩ 0 3 [⟨.BUY, 100, 10⟩]
          70000 ⟨[], [], []⟩).2).1 = true ∧
    (processMarketMessage ⟨50, 55, 0, 60000⟩ 0 3 [⟨.BUY, 100, 10⟩] 70000
        (processMarketMessage ⟨50, 55, 0, 60000⟩ 0 3 [⟨.BUY, 100, 10⟩]
          70000 ⟨[], [], []⟩).2).2
      = (processMarketMessage ⟨50, 55, 0, 60000⟩ 0 3 [⟨.BUY, 100, 10⟩]
          70000 ⟨[], [], []⟩).2 ∧
    ((processMarketMessage ⟨50, 55, 0, 60000⟩ 0 3 [⟨.BUY, 100, 10⟩] 70000
        ⟨[], [], []⟩).2.store.markets.filter (fun m =>
          m.startTime = (0 : ℤ) ∧ m.endTime = (60000 : ℤ))).length = 1 ∧
    ((processMarketMessage ⟨50, 55, 0, 60000⟩ 0 3 [⟨.BUY, 100, 10⟩] 70000
        ⟨[], [], []⟩).2.store.pnls.filter (fun p =>
          p.marketStartTime = (0 : ℤ) ∧
            p.marketEndTime = (60000 : ℤ))).length = 1 :=
  C3_processMarket_idempotent ⟨50, 55, 0, 60000⟩ 0 3 [⟨.BUY, 100, 10⟩]
    [⟨.BUY, 100, 10⟩] 70000 70000 ⟨[], [], []⟩ _ _
    (by simp) (by simp) (by simp) (by simp) rfl rfl


/-- The record loop of `calculateInterval` accumulates the sums of the
`pnl` and `totalFees` fields. -/
theorem intervalStep_foldl (pnls : List PnLDocument) :
    ∀ acc : IntervalAcc,
      (pnls.foldl intervalStep acc).totalPnL
        = acc.totalPnL + specSumPnl pnls ∧
      (pnls.foldl intervalStep acc).totalFees
        = acc.totalFees + specSumFees pnls := by
  induction pnls with
  | nil => intro acc; simp [specSumPnl, specSumFees]
  | cons p ps ih =>
    intro acc
    rcases ih (intervalStep acc p) with ⟨h1, h2⟩
    rw [List.foldl_cons, h1, h2]
    simp only [intervalStep, specSumPnl, specSumFees, List.map_cons,
      List.sum_cons]
    constructor <;> ring

/-- The `pnlMinusFees` returned by `calculateInterval` is the sum of
the `pnl` fields minus the sum of the `totalFees` fields. -/
theorem calculateInterval_pnlMinusFees (pnls : List PnLDocument) :
    (calculateInterval pnls).pnlMinusFees
      = specSumPnl pnls - specSumFees pnls := by
  rcases intervalStep_foldl pnls ⟨0, 0, 0, 0⟩ with ⟨h1, h2⟩
  simp only [calculateInterval, h1, h2]
  ring

/-- C4 counterexample: a single PnL record with `pnl = 10`,
`totalFees = 4`, `totalSellRevenue − totalBuyCost = 10`. The claim
predicts every window reports 10 (the sum of the `pnl` fields; for the
last interval, revenue minus cost), but `getPnls` reports 6 in all
three windows: the code returns `pnlMinusFees = Σpnl − ΣtotalFees`,
subtracting the already-fee-adjusted fees a second time. -/
theorem C4_counterexample :
    getPnls [⟨-60000, 0, 50, 55, 1, 1, 10, 20, 4, 10, 0⟩]
      = [⟨-60000, 0, 6⟩, ⟨-60000, 0, 6⟩, ⟨-300000, 0, 6⟩] ∧
    specSumPnl [⟨-60000, 0, 50, 55, 1, 1, 10, 20, 4, 10, 0⟩] = 10 ∧
    (⟨-60000, 0, 50, 55, 1, 1, 10, 20, 4, 10, 0⟩ :
        PnLDocument).totalSellRevenue
      - (⟨-60000, 0, 50, 55, 1, 1, 10, 20, 4, 10, 0⟩ :
        PnLDocument).totalBuyCost = 10 ∧
    (6 : ℚ) ≠ 10 := by
  refine ⟨?_, by norm_num [specSumPnl], by norm_num, by norm_num⟩
  simp only [getPnls,
    show latestPnL? [(⟨-60000, 0, 50, 55, 1, 1, 10, 20, 4, 10, 0⟩ :
        PnLDocument)]
      = some ⟨-60000, 0, 50, 55, 1, 1, 10, 20, 4, 10, 0⟩ from rfl]
  norm_num [List.filter, calculateInterval, intervalStep, List.foldl,
    round2, round_eq]

/-- C4 amended: for a non-empty `pnls` collection, `getPnls` returns
for each aggregation window a `pnl` equal to the sum of the `pnl`
fields MINUS the sum of the `totalFees` fields of the records selected
for that window (for the last-interval window, the latest record alone:
its `pnl` minus its `totalFees`), rounded to two decimal places on
output; and for an empty collection it returns an empty list. -/
theorem C4_amended (pnls : List PnLDocument) (lastP : PnLDocument)
    (h : latestPnL? pnls = some lastP) :
    (getPnls pnls).map PnLEntry.pnl
      = [round2 (lastP.pnl - lastP.totalFees),
          round2 (specSumPnl (pnls.filter (fun p =>
              lastP.marketEndTime - 60 * 1000 ≤ p.marketEndTime))
            - specSumFees (pnls.filter (fun p =>
              lastP.marketEndTime - 60 * 1000 ≤ p.marketEndTime))),
          round2 (specSumPnl (pnls.filter (fun p =>
              lastP.marketEndTime - 5 * 60 * 1000 ≤ p.marketEndTime))
            - specSumFees (pnls.filter (fun p =>
              lastP.marketEndTime - 5 * 60 * 1000 ≤ p.marketEndTime)))] ∧
    getPnls [] = [] := by
  refine ⟨?_, rfl⟩
  simp only [getPnls, h, List.map_cons, List.map_nil]
  rw [calculateInterval_pnlMinusFees, calculateInterval_pnlMinusFees,
    calculateInterval_pnlMinusFees]
  simp [specSumPnl, specSumFees]

/-- Witness for C4 amended: one record with `pnl = 7`,
`totalFees = 2`; every window reports `round2 (7 − 2) = 5`. -/
theorem C4_amended_witness :
    (getPnls [⟨-60000, 0, 50, 55, 2, 1, 3, 9, 2, 7, 0⟩]).map PnLEntry.pnl
      = [5, 5, 5] ∧
    getPnls [] = [] := by
  have h := C4_amended [⟨-60000, 0, 50, 55, 2, 1, 3, 9, 2, 7, 0⟩]
    ⟨-60000, 0, 50, 55, 2, 1, 3, 9, 2, 7, 0⟩ rfl
  refine ⟨h.1.trans ?_, h.2⟩
  norm_num [specSumPnl, specSumFees, round2, round_eq]

end T1
